import Mathlib

/-!
Verification of the hkvdb core: a shallow embedding of the value algebras
(Range32, Set32, Set64), the generic merge operator, the key codec, and the
store operations (put / get / get_counts / make_index / search), translated
from src/value.rs, src/db.rs and src/error.rs.  Machine integers (u32, u64,
bytes) are modelled as Nat with explicit bounds where they matter; fallible
code returns Except; byte strings are lists of Nat.
-/

namespace Hkvdb

/-- Bytes of a physical key or value: each element is a byte (0..255). -/
abbrev Bytes := List Nat

/-- Error type from src/error.rs.  The Io and Db variants wrap engine-internal
failures that never arise in the pure core and are omitted; the three decode
errors are modelled exactly. -/
inductive Error where
  | invalidKey (key : Bytes)
  | invalidValue (value : Bytes)
  | invalidUtf8
deriving DecidableEq, Repr

/-- Big-endian byte encoding of a natural number in a fixed width `w`
(models `u32::to_be_bytes` / `u64::to_be_bytes` for `w = 4` / `w = 8`). -/
def beBytes : Nat → Nat → Bytes
  | 0, _ => []
  | w + 1, n => n / 256 ^ w :: beBytes w (n % 256 ^ w)

/-- Big-endian value of a byte string (models `u32::from_be_bytes` /
`u64::from_be_bytes` applied to the corresponding fixed-width slice). -/
def beVal (bs : Bytes) : Nat :=
  bs.foldl (fun acc b => acc * 256 + b) 0

theorem beBytes_length : ∀ w n, (beBytes w n).length = w
  | 0, _ => rfl
  | w + 1, n => by simp [beBytes, beBytes_length w]

theorem beVal_append (xs ys : Bytes) :
    beVal (xs ++ ys) = ys.foldl (fun acc b => acc * 256 + b) (beVal xs) := by
  simp [beVal, List.foldl_append]

theorem foldl_be_shift : ∀ (l : Bytes) (a : Nat),
    l.foldl (fun acc b => acc * 256 + b) a = a * 256 ^ l.length + beVal l := by
  intro l
  induction l with
  | nil => intro a; simp [beVal]
  | cons x xs ih =>
    intro a
    have hx : beVal (x :: xs) = x * 256 ^ xs.length + beVal xs := by
      show List.foldl _ (0 * 256 + x) xs = _
      rw [Nat.zero_mul, Nat.zero_add]
      exact ih x
    simp only [List.foldl_cons, List.length_cons]
    rw [ih (a * 256 + x), hx]
    ring

theorem beVal_beBytes : ∀ w n, n < 256 ^ w → beVal (beBytes w n) = n := by
  intro w
  induction w with
  | zero => intro n h; interval_cases n; rfl
  | succ w ih =>
    intro n h
    have hpow : 0 < 256 ^ w := Nat.pos_pow_of_pos w (by omega)
    have hmod : n % 256 ^ w < 256 ^ w := Nat.mod_lt _ hpow
    have hfold := ih (n % 256 ^ w) hmod
    have hstep : beVal (beBytes (w + 1) n) =
        (beBytes w (n % 256 ^ w)).foldl (fun acc b => acc * 256 + b) (n / 256 ^ w) := by
      simp [beBytes, beVal]
    rw [hstep, foldl_be_shift, hfold, beBytes_length, Nat.mul_comm]
    exact Nat.div_add_mod n (256 ^ w)

/-- Parses a byte string as a sequence of big-endian `w`-byte integers, most
significant byte first, in stored order (models the decode loops of
`Set32::try_from` and `Set64::try_from`, which read `bytes[i*w..i*w+w]` for
each chunk). -/
def beChunks (w : Nat) (bs : Bytes) : List Nat :=
  (List.range (bs.length / w)).map (fun i => beVal ((bs.drop (i * w)).take w))

theorem beChunks_nil (w : Nat) : beChunks w [] = [] := by
  simp [beChunks]

theorem beChunks_append (w : Nat) (hw : 0 < w) (xs ys : Bytes)
    (hx : xs.length = w) :
    beChunks w (xs ++ ys) = beVal xs :: beChunks w ys := by
  rw [beChunks, beChunks]
  have hlen : (xs ++ ys).length = ys.length + w := by
    rw [List.length_append]; omega
  rw [hlen, Nat.add_div_right _ hw, List.range_succ_eq_map]
  rw [List.map_cons, List.map_map]
  have hhead : beVal (((xs ++ ys).drop (0 * w)).take w) = beVal xs := by
    rw [Nat.zero_mul, List.drop_zero, List.take_left' hx]
  have htail : ((fun i => beVal (((xs ++ ys).drop (i * w)).take w)) ∘ Nat.succ)
      = fun i => beVal ((ys.drop (i * w)).take w) := by
    funext i
    show beVal (((xs ++ ys).drop ((i + 1) * w)).take w) = _
    rw [show (i + 1) * w = w + i * w by ring, ← List.drop_drop, List.drop_left' hx]
  rw [htail, hhead]

/-! ### Sorting and deduplication (models `sort_unstable` followed by `dedup`) -/

/-- Removal of adjacent duplicates (models `Vec::dedup`, which removes
consecutive repeats in place). -/
def dedupAdj : List Nat → List Nat
  | [] => []
  | [a] => [a]
  | a :: b :: rest => if a = b then dedupAdj (b :: rest) else a :: dedupAdj (b :: rest)

/-- Sorting followed by adjacent deduplication, exactly the
`values.sort_unstable(); values.dedup();` idiom of src/value.rs. -/
def sortDedup (l : List Nat) : List Nat :=
  dedupAdj (List.insertionSort (· ≤ ·) l)

theorem mem_dedupAdj (a : Nat) : ∀ l : List Nat, a ∈ dedupAdj l ↔ a ∈ l
  | [] => by simp [dedupAdj]
  | [b] => by simp [dedupAdj]
  | b :: c :: rest => by
    rw [dedupAdj]
    by_cases h : b = c
    · rw [if_pos h, mem_dedupAdj a (c :: rest)]
      subst h
      simp
    · rw [if_neg h]
      simp [mem_dedupAdj a (c :: rest)]

theorem head?_dedupAdj : ∀ (x : Nat) (xs : List Nat), (dedupAdj (x :: xs)).head? = some x
  | _, [] => rfl
  | x, c :: rest => by
    rw [dedupAdj]
    by_cases h : x = c
    · rw [if_pos h, h]
      exact head?_dedupAdj c rest
    · rw [if_neg h]
      rfl

theorem chain_lt_dedupAdj :
    ∀ l : List Nat, List.Chain' (· ≤ ·) l → List.Chain' (· < ·) (dedupAdj l)
  | [] => by intro _; simp [dedupAdj]
  | [a] => by intro _; simp [dedupAdj]
  | a :: b :: rest => by
    intro h
    have hab : a ≤ b := (List.chain'_cons.mp h).1
    have htail : List.Chain' (· ≤ ·) (b :: rest) := (List.chain'_cons.mp h).2
    have ih := chain_lt_dedupAdj (b :: rest) htail
    rw [dedupAdj]
    by_cases hq : a = b
    · rw [if_pos hq]; exact ih
    · rw [if_neg hq]
      rw [List.chain'_cons']
      refine ⟨?_, ih⟩
      intro y hy
      rw [head?_dedupAdj b rest, Option.mem_def] at hy
      injection hy with hyb
      omega

theorem mem_sortDedup (a : Nat) (l : List Nat) : a ∈ sortDedup l ↔ a ∈ l := by
  rw [sortDedup, mem_dedupAdj]
  exact (List.perm_insertionSort (· ≤ ·) l).mem_iff

theorem chain_lt_sortDedup (l : List Nat) : List.Chain' (· < ·) (sortDedup l) := by
  rw [sortDedup]
  apply chain_lt_dedupAdj
  rw [List.chain'_iff_pairwise]
  exact List.sorted_insertionSort (· ≤ ·) l

theorem eq_of_chain_lt_of_mem_iff (l₁ l₂ : List Nat)
    (h₁ : List.Chain' (· < ·) l₁) (h₂ : List.Chain' (· < ·) l₂)
    (hm : ∀ x, x ∈ l₁ ↔ x ∈ l₂) : l₁ = l₂ := by
  haveI : IsAntisymm Nat (· < ·) := ⟨fun a b hab hba => absurd (lt_trans hab hba) (lt_irrefl a)⟩
  have hp₁ : List.Pairwise (· < ·) l₁ := (List.chain'_iff_pairwise).mp h₁
  have hp₂ : List.Pairwise (· < ·) l₂ := (List.chain'_iff_pairwise).mp h₂
  have hn₁ : l₁.Nodup := hp₁.imp fun h => Nat.ne_of_lt h
  have hn₂ : l₂.Nodup := hp₂.imp fun h => Nat.ne_of_lt h
  have hperm : l₁.Perm l₂ := by
    apply List.perm_of_nodup_nodup_toFinset_eq hn₁ hn₂
    apply List.toFinset.ext
    exact hm
  exact List.eq_of_perm_of_sorted hperm hp₁ hp₂

theorem sortDedup_congr (l₁ l₂ : List Nat) (hm : ∀ x, x ∈ l₁ ↔ x ∈ l₂) :
    sortDedup l₁ = sortDedup l₂ := by
  apply eq_of_chain_lt_of_mem_iff _ _ (chain_lt_sortDedup l₁) (chain_lt_sortDedup l₂)
  intro x
  rw [mem_sortDedup, mem_sortDedup]
  exact hm x

/-! ### Range32 (src/value.rs lines 41-124) -/

/-- Range32 from src/value.rs: a closed interval of u32 values. -/
structure Range32 where
  first : Nat
  last : Nat
deriving DecidableEq, Repr

/-- Range32 construction from a single observation (`Range32::singleton`). -/
def Range32.singleton (value : Nat) : Range32 :=
  ⟨value, value⟩

/-- Combine for Range32 (the `Add` impl): componentwise min of firsts and max
of lasts. -/
def Range32.add (a b : Range32) : Range32 :=
  ⟨Nat.min a.first b.first, Nat.max a.last b.last⟩

/-- Encoding of Range32 (`From<Range32> for Vec<u8>`): big-endian first then
big-endian last, 4 bytes each. -/
def Range32.encode (r : Range32) : Bytes :=
  beBytes 4 r.first ++ beBytes 4 r.last

/-- Decoding of Range32 (`TryFrom<&[u8]>`): exactly 8 bytes, otherwise
`InvalidValue` carrying the offending bytes.  The inner `try_into` calls in
the source cannot fail because the slices have length exactly 4. -/
def Range32.tryFrom (bytes : Bytes) : Except Error Range32 :=
  if bytes.length = 8 then
    .ok ⟨beVal (bytes.take 4), beVal ((bytes.drop 4).take 4)⟩
  else
    .error (.invalidValue bytes)

/-! ### Set32 and Set64 (src/value.rs lines 126-310) -/

/-- Set32 from src/value.rs: a sequence of u32 values, kept sorted and
deduplicated by the constructors and by combine, but not by decoding. -/
structure Set32 where
  values : List Nat
deriving DecidableEq, Repr

/-- Set32 construction (`Set32::new`): sorts and deduplicates its input. -/
def Set32.new (vs : List Nat) : Set32 :=
  ⟨sortDedup vs⟩

/-- Set32 singleton (`Set32::singleton`). -/
def Set32.singleton (value : Nat) : Set32 :=
  Set32.new [value]

/-- Combine for Set32 (the `Add` impl): concatenate, sort, deduplicate. -/
def Set32.add (a b : Set32) : Set32 :=
  ⟨sortDedup (a.values ++ b.values)⟩

/-- Encoding of Set32: concatenation of 4-byte big-endian values in stored
order. -/
def Set32.encode (s : Set32) : Bytes :=
  s.values.flatMap (beBytes 4)

/-- Decoding of Set32 (`TryFrom<&[u8]>`): any length that is a multiple of 4
succeeds, reading each 4-byte chunk in stored order; otherwise
`InvalidValue`. -/
def Set32.tryFrom (bytes : Bytes) : Except Error Set32 :=
  if bytes.length % 4 = 0 then
    .ok ⟨beChunks 4 bytes⟩
  else
    .error (.invalidValue bytes)

/-- Set64 from src/value.rs: as Set32 but with u64 elements, used for index
posting sets. -/
structure Set64 where
  values : List Nat
deriving DecidableEq, Repr

/-- Set64 construction (`Set64::new`): sorts and deduplicates its input. -/
def Set64.new (vs : List Nat) : Set64 :=
  ⟨sortDedup vs⟩

/-- Set64 singleton (`Set64::singleton`). -/
def Set64.singleton (value : Nat) : Set64 :=
  Set64.new [value]

/-- Combine for Set64 (the `Add` impl): concatenate, sort, deduplicate. -/
def Set64.add (a b : Set64) : Set64 :=
  ⟨sortDedup (a.values ++ b.values)⟩

/-- Encoding of Set64: concatenation of 8-byte big-endian values in stored
order. -/
def Set64.encode (s : Set64) : Bytes :=
  s.values.flatMap (beBytes 8)

/-- Decoding of Set64: any length that is a multiple of 8 succeeds, reading
each 8-byte chunk in stored order; otherwise `InvalidValue`. -/
def Set64.tryFrom (bytes : Bytes) : Except Error Set64 :=
  if bytes.length % 8 = 0 then
    .ok ⟨beChunks 8 bytes⟩
  else
    .error (.invalidValue bytes)

theorem sortDedup_append_left (xs ys : List Nat) :
    sortDedup (sortDedup xs ++ ys) = sortDedup (xs ++ ys) := by
  apply sortDedup_congr
  intro x
  simp [mem_sortDedup]

theorem sortDedup_append_right (xs ys : List Nat) :
    sortDedup (xs ++ sortDedup ys) = sortDedup (xs ++ ys) := by
  apply sortDedup_congr
  intro x
  simp [mem_sortDedup]

theorem sortDedup_append_comm (xs ys : List Nat) :
    sortDedup (xs ++ ys) = sortDedup (ys ++ xs) := by
  apply sortDedup_congr
  intro x
  simp
  tauto

/-- C1: for every pair and triple of values of each algebra (Range32, Set32,
Set64), the combine operation (the `Add` implementation) is associative and
commutative. -/
theorem combine_assoc_comm :
    (∀ a b c : Range32, (a.add b).add c = a.add (b.add c)) ∧
    (∀ a b : Range32, a.add b = b.add a) ∧
    (∀ a b c : Set32, (a.add b).add c = a.add (b.add c)) ∧
    (∀ a b : Set32, a.add b = b.add a) ∧
    (∀ a b c : Set64, (a.add b).add c = a.add (b.add c)) ∧
    (∀ a b : Set64, a.add b = b.add a) := by
  refine ⟨?_, ?_, ?_, ?_, ?_, ?_⟩
  · intro a b c
    simp [Range32.add, Nat.min_assoc, Nat.max_assoc]
  · intro a b
    simp [Range32.add, Nat.min_comm, Nat.max_comm]
  · intro a b c
    show Set32.mk _ = Set32.mk _
    congr 1
    rw [Set32.add, Set32.add]
    simp only
    rw [sortDedup_append_left, sortDedup_append_right, List.append_assoc]
  · intro a b
    show Set32.mk _ = Set32.mk _
    congr 1
    exact sortDedup_append_comm _ _
  · intro a b c
    show Set64.mk _ = Set64.mk _
    congr 1
    rw [Set64.add, Set64.add]
    simp only
    rw [sortDedup_append_left, sortDedup_append_right, List.append_assoc]
  · intro a b
    show Set64.mk _ = Set64.mk _
    congr 1
    exact sortDedup_append_comm _ _

/-! ### The generic merge operator (`Value::merge`, src/value.rs lines 11-38) -/

/-- Bundle of the operations the `Value` trait requires: `prepare` (decode),
conversion into bytes (encode) and the `Add` combine. -/
structure Alg (α : Type) where
  prepare : Bytes → Except Error α
  encode : α → Bytes
  add : α → α → α

/-- Loop body of `Value::merge`: folds the operands into the accumulator in
order, combining with `Add`; on a decode failure returns the error paired
with the re-encoded accumulator. -/
def mergeLoop {α : Type} (A : Alg α) :
    Option α → List Bytes → Except (Error × Option Bytes) (Option Bytes)
  | agg, [] => .ok (agg.map A.encode)
  | agg, b :: rest =>
    match A.prepare b with
    | .error e => .error (e, agg.map A.encode)
    | .ok v =>
      mergeLoop A (some (match agg with | some current => A.add current v | none => v)) rest

/-- The default `Value::merge` implementation: decode the existing value if
present (on failure, error paired with the raw last operand), then fold the
operands left-to-right. -/
def Alg.merge {α : Type} (A : Alg α) (existing : Option Bytes) (newValues : List Bytes) :
    Except (Error × Option Bytes) (Option Bytes) :=
  match existing with
  | none => mergeLoop A none newValues
  | some e =>
    match A.prepare e with
    | .error err => .error (err, newValues.getLast?)
    | .ok v => mergeLoop A (some v) newValues

/-- The `Value` instance for Range32. -/
def range32Alg : Alg Range32 :=
  ⟨Range32.tryFrom, Range32.encode, Range32.add⟩

/-- The `Value` instance for Set32. -/
def set32Alg : Alg Set32 :=
  ⟨Set32.tryFrom, Set32.encode, Set32.add⟩

/-- The `Value` instance for Set64. -/
def set64Alg : Alg Set64 :=
  ⟨Set64.tryFrom, Set64.encode, Set64.add⟩

/-- One combine step on an optional accumulator, as in the loop of
`Value::merge`. -/
def combineOpt {α : Type} (A : Alg α) (agg : Option α) (v : α) : Option α :=
  some (match agg with | some current => A.add current v | none => v)

/-- Modelled from the spec: the left-to-right fold with `combine` over already
decoded operands, starting from the optional decoded existing value. -/
def foldAgg {α : Type} (A : Alg α) (start : Option α) (vs : List α) : Option α :=
  vs.foldl (combineOpt A) start

/-- Decidable test that a byte string decodes successfully. -/
def decOk {α : Type} (A : Alg α) (b : Bytes) : Bool :=
  (A.prepare b).toOption.isSome

/-- Decoded values of the byte strings that decode successfully. -/
def decodedOf {α : Type} (A : Alg α) (bs : List Bytes) : List α :=
  bs.filterMap (fun b => (A.prepare b).toOption)

/-- Modelled from the spec: merge described non-operationally — aggregate the
longest decodable prefix of the operands by a left fold with `combine`; if a
later operand fails to decode, the error is paired with the re-encoded
aggregate reached so far. -/
def mergeSpecOf {α : Type} (A : Alg α) (start : Option α) (ops : List Bytes) :
    Except (Error × Option Bytes) (Option Bytes) :=
  let agg := foldAgg A start (decodedOf A (ops.takeWhile (decOk A)))
  match ops.dropWhile (decOk A) with
  | [] => .ok (agg.map A.encode)
  | bad :: _ =>
    match A.prepare bad with
    | .error e => .error (e, agg.map A.encode)
    | .ok _ => .ok (agg.map A.encode)

theorem mergeLoop_eq_spec {α : Type} (A : Alg α) :
    ∀ (ops : List Bytes) (start : Option α), mergeLoop A start ops = mergeSpecOf A start ops
  | [], start => by
    simp [mergeLoop, mergeSpecOf, foldAgg, decodedOf]
  | b :: rest, start => by
    cases hp : A.prepare b with
    | error e =>
      have hdec : decOk A b = false := by simp [decOk, hp, Except.toOption]
      simp only [mergeLoop, mergeSpecOf, hp, List.takeWhile_cons, List.dropWhile_cons, hdec]
      simp [hp, foldAgg, decodedOf]
    | ok v =>
      have hdec : decOk A b = true := by simp [decOk, hp, Except.toOption]
      have ih := mergeLoop_eq_spec A rest (combineOpt A start v)
      have hstep : mergeLoop A start (b :: rest) = mergeLoop A (combineOpt A start v) rest := by
        simp only [mergeLoop, hp]
        rfl
      rw [hstep, ih]
      simp only [mergeSpecOf, List.takeWhile_cons, List.dropWhile_cons, hdec, if_true,
        decodedOf, List.filterMap_cons, hp, Except.toOption, foldAgg, List.foldl_cons]

/-- C3 counterexample: with no existing value and the single undecodable
operand `[0]`, `Value::merge` (here at the Range32 instance) returns the
error paired with `none`, not with the raw last operand `[0]` as the claim
states for the nothing-aggregated-yet case. -/
theorem merge_fallback_counterexample :
    range32Alg.merge none [[0]] = .error (.invalidValue [0], none) ∧
    range32Alg.merge none [[0]] ≠ .error (.invalidValue [0], some [0]) := by
  have h1 : range32Alg.merge none [[0]] = .error (.invalidValue [0], none) := rfl
  refine ⟨h1, ?_⟩
  rw [h1]
  simp

/-- C3 (amended): `Value::merge` decodes the existing value (if present) and
each operand in order, folds them left-to-right with combine, and re-encodes.
When the existing value fails to decode, it returns the error paired with the
raw last operand (none if there are no operands); when an operand fails to
decode, it returns the error paired with the re-encoded aggregate of the
decoded prefix (none when nothing has aggregated yet, even if later raw
operands exist). -/
theorem merge_characterization {α : Type} (A : Alg α) :
    (∀ e err ops, A.prepare e = .error err →
      A.merge (some e) ops = .error (err, ops.getLast?)) ∧
    (∀ e v ops, A.prepare e = .ok v →
      A.merge (some e) ops = mergeSpecOf A (some v) ops) ∧
    (∀ ops, A.merge none ops = mergeSpecOf A none ops) := by
  refine ⟨?_, ?_, ?_⟩
  · intro e err ops hp
    simp [Alg.merge, hp]
  · intro e v ops hp
    simp [Alg.merge, hp, mergeLoop_eq_spec]
  · intro ops
    simp [Alg.merge, mergeLoop_eq_spec]

/-- C3 witness: the amended characterization applied at the Range32 value
`[1, 2]` (encoded) with the single operand encoding `[5, 5]`. -/
theorem merge_characterization_witness :
    range32Alg.merge (some [0, 0, 0, 1, 0, 0, 0, 2]) [[0, 0, 0, 5, 0, 0, 0, 5]] =
      mergeSpecOf range32Alg (some ⟨1, 2⟩) [[0, 0, 0, 5, 0, 0, 0, 5]] :=
  (merge_characterization range32Alg).2.1 [0, 0, 0, 1, 0, 0, 0, 2] ⟨1, 2⟩
    [[0, 0, 0, 5, 0, 0, 0, 5]] rfl

/-! ### Encode/decode round-trips (C7) -/

theorem flatMap_beBytes_length (w : Nat) :
    ∀ vs : List Nat, (vs.flatMap (beBytes w)).length = w * vs.length
  | [] => by simp
  | v :: vs => by
    simp [List.flatMap_cons, beBytes_length, flatMap_beBytes_length w vs, Nat.mul_succ]
    ring

theorem beChunks_flatMap (w : Nat) (hw : 0 < w) :
    ∀ vs : List Nat, (∀ v ∈ vs, v < 256 ^ w) → beChunks w (vs.flatMap (beBytes w)) = vs
  | [] => by intro _; simp [beChunks_nil]
  | v :: vs => by
    intro hb
    rw [List.flatMap_cons, beChunks_append w hw _ _ (beBytes_length w v)]
    rw [beVal_beBytes w v (hb v (by simp))]
    rw [beChunks_flatMap w hw vs (fun x hx => hb x (by simp [hx]))]

/-- C7: for every valid value of each algebra, decode is a left inverse of
encode; and every byte string whose length does not match the layout (8 for
Range32, a multiple of 4 for Set32, a multiple of 8 for Set64) fails to
decode with InvalidValue. -/
theorem roundtrip_and_invalid_length :
    (∀ r : Range32, r.first < 2 ^ 32 → r.last < 2 ^ 32 →
      Range32.tryFrom (Range32.encode r) = .ok r) ∧
    (∀ bs : Bytes, bs.length ≠ 8 → Range32.tryFrom bs = .error (.invalidValue bs)) ∧
    (∀ s : Set32, (∀ v ∈ s.values, v < 2 ^ 32) →
      Set32.tryFrom (Set32.encode s) = .ok s) ∧
    (∀ bs : Bytes, bs.length % 4 ≠ 0 → Set32.tryFrom bs = .error (.invalidValue bs)) ∧
    (∀ s : Set64, (∀ v ∈ s.values, v < 2 ^ 64) →
      Set64.tryFrom (Set64.encode s) = .ok s) ∧
    (∀ bs : Bytes, bs.length % 8 ≠ 0 → Set64.tryFrom bs = .error (.invalidValue bs)) := by
  have h32 : (256 : Nat) ^ 4 = 2 ^ 32 := by norm_num
  have h64 : (256 : Nat) ^ 8 = 2 ^ 64 := by norm_num
  refine ⟨?_, ?_, ?_, ?_, ?_, ?_⟩
  · intro r hf hl
    have hlen : (Range32.encode r).length = 8 := by
      simp [Range32.encode, beBytes_length]
    rw [Range32.tryFrom, if_pos hlen]
    have htake : (Range32.encode r).take 4 = beBytes 4 r.first := by
      rw [Range32.encode, List.take_left' (beBytes_length 4 r.first)]
    have hdrop : (Range32.encode r).drop 4 = beBytes 4 r.last := by
      rw [Range32.encode, List.drop_left' (beBytes_length 4 r.first)]
    rw [htake, hdrop, List.take_of_length_le (by rw [beBytes_length])]
    rw [beVal_beBytes 4 r.first (by omega), beVal_beBytes 4 r.last (by omega)]
  · intro bs hlen
    rw [Range32.tryFrom, if_neg hlen]
  · intro s hb
    have hlen : (Set32.encode s).length % 4 = 0 := by
      rw [Set32.encode, flatMap_beBytes_length]
      simp [Nat.mul_mod_right]
    rw [Set32.tryFrom, if_pos hlen, Set32.encode]
    rw [beChunks_flatMap 4 (by omega) s.values (fun v hv => by rw [h32]; exact hb v hv)]
  · intro bs hlen
    rw [Set32.tryFrom, if_neg hlen]
  · intro s hb
    have hlen : (Set64.encode s).length % 8 = 0 := by
      rw [Set64.encode, flatMap_beBytes_length]
      simp [Nat.mul_mod_right]
    rw [Set64.tryFrom, if_pos hlen, Set64.encode]
    rw [beChunks_flatMap 8 (by omega) s.values (fun v hv => by rw [h64]; exact hb v hv)]
  · intro bs hlen
    rw [Set64.tryFrom, if_neg hlen]

/-- C7 witness: round-trip and invalid-length failure evaluated at concrete
values for each of the three algebras. -/
theorem roundtrip_and_invalid_length_witness :
    Range32.tryFrom (Range32.encode ⟨3, 5⟩) = .ok ⟨3, 5⟩ ∧
    Range32.tryFrom [0] = .error (.invalidValue [0]) ∧
    Set32.tryFrom (Set32.encode ⟨[7]⟩) = .ok ⟨[7]⟩ ∧
    Set32.tryFrom [1, 2] = .error (.invalidValue [1, 2]) ∧
    Set64.tryFrom (Set64.encode ⟨[9]⟩) = .ok ⟨[9]⟩ ∧
    Set64.tryFrom [1] = .error (.invalidValue [1]) :=
  ⟨roundtrip_and_invalid_length.1 ⟨3, 5⟩ (by decide) (by decide),
   roundtrip_and_invalid_length.2.1 [0] (by decide),
   roundtrip_and_invalid_length.2.2.1 ⟨[7]⟩ (by decide),
   roundtrip_and_invalid_length.2.2.2.1 [1, 2] (by decide),
   roundtrip_and_invalid_length.2.2.2.2.1 ⟨[9]⟩ (by decide),
   roundtrip_and_invalid_length.2.2.2.2.2 [1] (by decide)⟩

/-! ### Key codec (src/db.rs lines 207-218) -/

/-- Primary key construction (`Hkvdb::make_key`): the 8-byte big-endian id
followed by the raw label bytes.  Note there is no namespace tag byte in the
key itself; namespace separation is by column family. -/
def makeKey (id : Nat) (label : Bytes) : Bytes :=
  beBytes 8 id ++ label

/-- Primary scan key construction (`Hkvdb::make_prefix`): the bare 8-byte
big-endian id used to bound a per-id scan. -/
def makePrefixKey (id : Nat) : Bytes :=
  beBytes 8 id

theorem lex_beBytes_append : ∀ (w a b : Nat), a < b → b < 256 ^ w →
    ∀ l₁ l₂ : Bytes, List.Lex (· < ·) (beBytes w a ++ l₁) (beBytes w b ++ l₂) := by
  intro w
  induction w with
  | zero =>
    intro a b hab hb l₁ l₂
    exact absurd hab (by omega)
  | succ w ih =>
    intro a b hab hb l₁ l₂
    have hpow : 0 < 256 ^ w := Nat.pos_pow_of_pos w (by omega)
    have hq : a / 256 ^ w ≤ b / 256 ^ w := Nat.div_le_div_right (Nat.le_of_lt hab)
    rcases Nat.lt_or_ge (a / 256 ^ w) (b / 256 ^ w) with hlt | hge
    · exact List.Lex.rel hlt
    · have heq : a / 256 ^ w = b / 256 ^ w := le_antisymm hq hge
      have hmod : a % 256 ^ w < b % 256 ^ w := by
        by_contra hcontra
        push_neg at hcontra
        have hba : b ≤ a := by
          calc b = 256 ^ w * (b / 256 ^ w) + b % 256 ^ w := (Nat.div_add_mod b _).symm
            _ ≤ 256 ^ w * (a / 256 ^ w) + a % 256 ^ w := by
                rw [heq]
                exact Nat.add_le_add_left hcontra _
            _ = a := Nat.div_add_mod a _
        omega
      have hbmod : b % 256 ^ w < 256 ^ w := Nat.mod_lt _ hpow
      have hrec := ih (a % 256 ^ w) (b % 256 ^ w) hmod hbmod l₁ l₂
      show List.Lex (· < ·) ((a / 256 ^ w :: beBytes w (a % 256 ^ w)) ++ l₁)
        ((b / 256 ^ w :: beBytes w (b % 256 ^ w)) ++ l₂)
      rw [heq]
      exact List.Lex.cons hrec

/-- C4 counterexample: the primary key for id 0 with the empty label is the
bare 8-byte big-endian id — 8 bytes, not the 9 bytes (one namespace tag byte
plus the 8-byte id) that the claimed layout requires. -/
theorem make_key_counterexample :
    makeKey 0 [] = [0, 0, 0, 0, 0, 0, 0, 0] ∧ (makeKey 0 []).length = 8 :=
  ⟨rfl, rfl⟩

/-- C4 (amended): the physical primary key is the 8-byte big-endian id
followed directly by the raw label bytes, with no namespace tag byte
(namespace separation is by column family); lexicographic byte order still
orders ids numerically and keeps all labels of one id together after the
8-byte id prefix. -/
theorem make_key_layout_and_order (id₁ id₂ : Nat) (l₁ l₂ : Bytes)
    (hlt : id₁ < id₂) (hb : id₂ < 2 ^ 64) :
    makeKey id₁ l₁ = beBytes 8 id₁ ++ l₁ ∧
    (makeKey id₁ l₁).length = 8 + l₁.length ∧
    (∃ rest, makeKey id₁ l₁ = makePrefixKey id₁ ++ rest) ∧
    List.Lex (· < ·) (makeKey id₁ l₁) (makeKey id₂ l₂) := by
  refine ⟨rfl, ?_, ⟨l₁, rfl⟩, ?_⟩
  · simp [makeKey, beBytes_length]
  · have h64 : (256 : Nat) ^ 8 = 2 ^ 64 := by norm_num
    exact lex_beBytes_append 8 id₁ id₂ hlt (by omega) l₁ l₂

/-- C4 witness: the layout and ordering facts evaluated at ids 1 < 2. -/
theorem make_key_layout_and_order_witness :
    makeKey 1 [97] = beBytes 8 1 ++ [97] ∧
    (makeKey 1 [97]).length = 8 + 1 ∧
    (∃ rest, makeKey 1 [97] = makePrefixKey 1 ++ rest) ∧
    List.Lex (· < ·) (makeKey 1 [97]) (makeKey 2 []) :=
  make_key_layout_and_order 1 2 [97] [] (by decide) (by decide)

/-! ### Read-path key decoding (C5) -/

/-- Models the id extraction performed on every read-path key in get_counts,
get_raw, iter_raw and make_index:
`u64::from_be_bytes(key[0..8].try_into().map_err(|_| InvalidKey(...))?)`.
The slice expression `key[0..8]` panics when the key is shorter than 8
bytes, before the `try_into` conversion can run; `none` models that panic.
For keys of length at least 8 the slice has length exactly 8 and `try_into`
always succeeds, so the `InvalidKey` branch of the source is unreachable. -/
def keyIdRust (key : Bytes) : Option (Except Error Nat) :=
  if key.length < 8 then none
  else some (.ok (beVal (key.take 8)))

/-- C5: a key shorter than the fixed-width 8-byte id field makes the read
path panic (modelled as `none`) instead of returning the typed error
InvalidKey; for keys of at least 8 bytes the extraction always succeeds, so
the InvalidKey error constructed in the source is unreachable. -/
theorem short_key_panics :
    (∀ key : Bytes, key.length < 8 → keyIdRust key = none) ∧
    (∀ key : Bytes, 8 ≤ key.length → keyIdRust key = some (.ok (beVal (key.take 8)))) ∧
    keyIdRust [0] = none := by
  refine ⟨?_, ?_, rfl⟩
  · intro key h
    rw [keyIdRust, if_pos h]
  · intro key h
    rw [keyIdRust, if_neg (by omega)]

/-- C5 witness: the panic on a concrete 2-byte key, and the successful id
extraction on a concrete 8-byte key. -/
theorem short_key_panics_witness :
    keyIdRust [1, 2] = none ∧ keyIdRust [0, 0, 0, 0, 0, 0, 0, 9] = some (.ok 9) :=
  ⟨short_key_panics.1 [1, 2] (by decide),
   (short_key_panics.2.1 [0, 0, 0, 0, 0, 0, 0, 9] (by decide)).trans (by rfl)⟩

/-! ### UTF-8 and index key derivation (src/db.rs lines 260-276) -/

/-- UTF-8 decoding of a byte string into its code points, as performed by
`std::str::from_utf8`: rejects invalid lead bytes, truncated or malformed
continuation bytes, overlong encodings, surrogate code points and values
beyond U+10FFFF. -/
def utf8Decode : Bytes → Option (List Nat)
  | [] => some []
  | b :: rest =>
    if b < 0x80 then
      match utf8Decode rest with
      | some cs => some (b :: cs)
      | none => none
    else if b < 0xC2 then none
    else if b < 0xE0 then
      match rest with
      | b1 :: rest₁ =>
        if 0x80 ≤ b1 ∧ b1 < 0xC0 then
          match utf8Decode rest₁ with
          | some cs => some (((b - 0xC0) * 0x40 + (b1 - 0x80)) :: cs)
          | none => none
        else none
      | [] => none
    else if b < 0xF0 then
      match rest with
      | b1 :: b2 :: rest₂ =>
        if (0x80 ≤ b1 ∧ b1 < 0xC0) ∧ (0x80 ≤ b2 ∧ b2 < 0xC0) ∧
            (b = 0xE0 → 0xA0 ≤ b1) ∧ (b = 0xED → b1 < 0xA0) then
          match utf8Decode rest₂ with
          | some cs => some (((b - 0xE0) * 0x1000 + (b1 - 0x80) * 0x40 + (b2 - 0x80)) :: cs)
          | none => none
        else none
      | _ => none
    else if b < 0xF5 then
      match rest with
      | b1 :: b2 :: b3 :: rest₃ =>
        if (0x80 ≤ b1 ∧ b1 < 0xC0) ∧ (0x80 ≤ b2 ∧ b2 < 0xC0) ∧ (0x80 ≤ b3 ∧ b3 < 0xC0) ∧
            (b = 0xF0 → 0x90 ≤ b1) ∧ (b = 0xF4 → b1 < 0x90) then
          match utf8Decode rest₃ with
          | some cs =>
            some (((b - 0xF0) * 0x40000 + (b1 - 0x80) * 0x1000 + (b2 - 0x80) * 0x40 +
              (b3 - 0x80)) :: cs)
          | none => none
        else none
      | _ => none
    else none

/-- UTF-8 encoding of a single code point. -/
def utf8Encode (c : Nat) : Bytes :=
  if c < 0x80 then [c]
  else if c < 0x800 then [0xC0 + c / 0x40, 0x80 + c % 0x40]
  else if c < 0x10000 then [0xE0 + c / 0x1000, 0x80 + c / 0x40 % 0x40, 0x80 + c % 0x40]
  else [0xF0 + c / 0x40000, 0x80 + c / 0x1000 % 0x40, 0x80 + c / 0x40 % 0x40, 0x80 + c % 0x40]

/-- Modelled from the spec: the lower-casing applied by the case-insensitive
index key derivation (`str::to_lowercase`, whose Unicode tables are outside
this repository), restricted to the ASCII range exercised by the claims:
ASCII uppercase letters map to their lowercase counterparts, all other code
points are unchanged. -/
def lowerCp (c : Nat) : Nat :=
  if 65 ≤ c ∧ c ≤ 90 then c + 32 else c

/-- Case sensitivity selector from src/db.rs. -/
inductive CaseSensitivity where
  | sensitive
  | insensitive
deriving DecidableEq, Repr

/-- Index key derivation (`Hkvdb::make_index_key`): the raw label bytes for
the case-sensitive variant; the UTF-8 lower-cased bytes for the
case-insensitive variant, failing with InvalidUtf8 on non-UTF-8 labels. -/
def makeIndexKey (data : Bytes) (cs : CaseSensitivity) : Except Error Bytes :=
  match cs with
  | .insensitive =>
    match utf8Decode data with
    | none => .error .invalidUtf8
    | some cps => .ok ((cps.map lowerCp).flatMap utf8Encode)
  | .sensitive => .ok data

/-- C6 counterexample: the label "a" consists of a single cased letter, yet
the case-sensitive and case-insensitive index key derivations produce the
same encoded key. -/
theorem index_key_case_counterexample :
    makeIndexKey [97] CaseSensitivity.sensitive = .ok [97] ∧
    makeIndexKey [97] CaseSensitivity.insensitive = .ok [97] :=
  ⟨rfl, rfl⟩

theorem lowerCp_not_upper (c : Nat) : ¬(65 ≤ lowerCp c ∧ lowerCp c ≤ 90) := by
  rw [lowerCp]
  split <;> omega

theorem utf8Encode_lower_no_upper (c b : Nat) (hb : b ∈ utf8Encode (lowerCp c)) :
    ¬(65 ≤ b ∧ b ≤ 90) := by
  have hl : ¬(65 ≤ lowerCp c ∧ lowerCp c ≤ 90) := lowerCp_not_upper c
  rw [utf8Encode] at hb
  by_cases h1 : lowerCp c < 0x80
  · rw [if_pos h1] at hb
    simp at hb
    omega
  · rw [if_neg h1] at hb
    by_cases h2 : lowerCp c < 0x800
    · rw [if_pos h2] at hb
      simp at hb
      omega
    · rw [if_neg h2] at hb
      by_cases h3 : lowerCp c < 0x10000
      · rw [if_pos h3] at hb
        simp at hb
        omega
      · rw [if_neg h3] at hb
        simp at hb
        omega

theorem lowered_bytes_no_upper (cps : List Nat) (b : Nat)
    (hb : b ∈ (cps.map lowerCp).flatMap utf8Encode) : ¬(65 ≤ b ∧ b ≤ 90) := by
  rw [List.mem_flatMap] at hb
  obtain ⟨d, hd, hbd⟩ := hb
  rw [List.mem_map] at hd
  obtain ⟨c, _, rfl⟩ := hd
  exact utf8Encode_lower_no_upper c b hbd

/-- C6 (amended): for every label containing at least one uppercase ASCII
letter, the encoded index key derived under Sensitive differs from the one
derived under Insensitive (whether or not the label is valid UTF-8), so
index entries for such labels cannot collide across the two derivations. -/
theorem index_key_case_difference (data : Bytes) (b : Nat)
    (hmem : b ∈ data) (hup : 65 ≤ b ∧ b ≤ 90) :
    makeIndexKey data CaseSensitivity.sensitive ≠
      makeIndexKey data CaseSensitivity.insensitive := by
  intro hcontra
  simp only [makeIndexKey] at hcontra
  cases hdec : utf8Decode data with
  | none =>
    rw [hdec] at hcontra
    exact Except.noConfusion hcontra
  | some cps =>
    rw [hdec] at hcontra
    have hinj : data = (cps.map lowerCp).flatMap utf8Encode := by
      injection hcontra
    have hmem2 : b ∈ (cps.map lowerCp).flatMap utf8Encode := hinj ▸ hmem
    exact (lowered_bytes_no_upper cps b hmem2) hup

/-- C6 witness: the two index key derivations differ at the label "F". -/
theorem index_key_case_difference_witness :
    makeIndexKey [70] CaseSensitivity.sensitive ≠
      makeIndexKey [70] CaseSensitivity.insensitive :=
  index_key_case_difference [70] 70 (by decide) (by decide)

/-! ### The storage engine model and the store operations (src/db.rs) -/

/-- Lexicographic byte-order comparison (memcmp order, a strict prefix sorts
first), the key order in which the engine iterates a column family. -/
def bytesLt : Bytes → Bytes → Bool
  | [], [] => false
  | [], _ :: _ => true
  | _ :: _, [] => false
  | a :: as, b :: bs => if a < b then true else if b < a then false else bytesLt as bs

/-- Modelled from the spec: one column family of the ordered-log storage
engine (§6) — a finite map from byte keys to byte values, represented as an
association list kept sorted in lexicographic key order for iteration. -/
abbrev Store := List (Bytes × Bytes)

/-- Point lookup in a column family. -/
def storeLookup (st : Store) (k : Bytes) : Option Bytes :=
  match st.find? (fun kv => kv.1 == k) with
  | some kv => some kv.2
  | none => none

/-- Writes (or deletes, for `none`) the value under a key, keeping the
association list sorted by key. -/
def storeSet : Store → Bytes → Option Bytes → Store
  | [], k, nv =>
    match nv with
    | some v => [(k, v)]
    | none => []
  | (k0, v0) :: rest, k, nv =>
    if bytesLt k k0 then
      match nv with
      | some v => (k, v) :: (k0, v0) :: rest
      | none => (k0, v0) :: rest
    else if k = k0 then
      match nv with
      | some v => (k, v) :: rest
      | none => rest
    else (k0, v0) :: storeSet rest k nv

/-- Modelled from the spec: a merge request against one column family (§6).
The engine applies the column family's merge callback to the existing value
and the pending operand and stores the result; since reads always see the
result of all pending merges and the callback is associative, applying each
operand as it arrives is equivalent to any deferred batching. -/
def mergeWrite (callback : Bytes → Option Bytes → List Bytes → Option Bytes)
    (st : Store) (k : Bytes) (op : Bytes) : Store :=
  storeSet st k (callback k (storeLookup st k) [op])

/-- The `merge_by_id` callback (src/db.rs lines 278-290): delegates to
`Value::merge`; the engine contract forbids failure, so on error the
callback logs and returns the error's paired fallback value. -/
def mergeByIdCallback {α : Type} (A : Alg α) (_key : Bytes) (existing : Option Bytes)
    (operands : List Bytes) : Option Bytes :=
  match A.merge existing operands with
  | .ok v => v
  | .error (_, fallback) => fallback

/-- The `merge_index` callback (src/db.rs lines 292-304): `Set64::merge` with
the same fallback policy. -/
def mergeIndexCallback (_key : Bytes) (existing : Option Bytes)
    (operands : List Bytes) : Option Bytes :=
  match set64Alg.merge existing operands with
  | .ok v => v
  | .error (_, fallback) => fallback

/-- `Hkvdb::put_raw` (src/db.rs lines 166-171): submit one merge request to
the by_id column family under the composite key, with the encoded value as
operand.  `put` and the batch variants submit the same requests. -/
def dbPutRaw {α : Type} (A : Alg α) (st : Store) (id : Nat) (data : Bytes)
    (value : α) : Store :=
  mergeWrite (mergeByIdCallback A) st (makeKey id data) (A.encode value)

/-- A sequence of put_raw writes applied in order to the by_id column
family (covers put, put_raw, put_batch and put_raw_batch, which all submit
the same per-entry merge requests). -/
def putAll {α : Type} (A : Alg α) (ops : List (Nat × Bytes × α)) (st : Store) : Store :=
  ops.foldl (fun s o => dbPutRaw A s o.1 o.2.1 o.2.2) st

/-- A loop collecting one result per element, aborting on the first error —
the shape of the source's read loops, which use the `?` operator on each
entry. -/
def collectOk {β γ : Type} (f : β → Except Error γ) : List β → Except Error (List γ)
  | [] => .ok []
  | x :: xs =>
    match f x with
    | .error e => .error e
    | .ok y =>
      match collectOk f xs with
      | .error e => .error e
      | .ok ys => .ok (y :: ys)

/-- `Hkvdb::get_raw` (src/db.rs lines 104-125): prefix scan of the by_id
column family from the 8-byte id prefix; each scanned key with matching id
contributes (label suffix, decoded value); the scan breaks at the first key
whose id differs.  Value decode failures propagate. -/
def dbGetRaw {α : Type} (A : Alg α) (st : Store) (id : Nat) :
    Except Error (List (Bytes × α)) :=
  collectOk (fun kv => (A.prepare kv.2).map (fun v => (kv.1.drop 8, v)))
    ((st.dropWhile (fun kv => bytesLt kv.1 (makePrefixKey id))).takeWhile
      (fun kv => beVal (kv.1.take 8) == id))

/-- `Hkvdb::get` (src/db.rs lines 127-136): get_raw with each label decoded
as UTF-8 (to its code points), failing with InvalidUtf8 otherwise. -/
def dbGet {α : Type} (A : Alg α) (st : Store) (id : Nat) :
    Except Error (List (List Nat × α)) :=
  match dbGetRaw A st id with
  | .error e => .error e
  | .ok raw =>
    collectOk (fun kv =>
      match utf8Decode kv.1 with
      | some cps => Except.ok (cps, kv.2)
      | none => Except.error Error.invalidUtf8) raw

/-- `Hkvdb::get_counts` (src/db.rs lines 84-102): full scan of the by_id
column family counting distinct ids and total entries.  Returns `none` (the
panic modelled by keyIdRust) if any key is shorter than 8 bytes; the
InvalidKey error in the source is unreachable. -/
def dbGetCounts (st : Store) : Option (Nat × Nat) :=
  if st.all (fun kv => 8 ≤ kv.1.length) then
    some ((st.map (fun kv => beVal (kv.1.take 8))).dedup.length, st.length)
  else none

/-- `Hkvdb::make_index` (src/db.rs lines 241-258): scan the primary column
family in key order; for each entry derive the index key from the label
part under the given case policy and submit a merge request adding the
Set64 singleton of the entry's id to that key's posting set in the index
column family.  The first failing key derivation aborts the scan with its
error, but merge requests already submitted stay applied; the model returns
both the result and the final index column family.  (The id extraction
panics on keys shorter than 8 bytes, as modelled by keyIdRust; all keys
written by the put path have at least 8 bytes.) -/
def makeIndexRun : List (Bytes × Bytes) → Store → CaseSensitivity →
    Except Error Unit × Store
  | [], idx, _ => (.ok (), idx)
  | (key, _) :: rest, idx, cs =>
    match makeIndexKey (key.drop 8) cs with
    | .error e => (.error e, idx)
    | .ok ik =>
      makeIndexRun rest
        (mergeWrite mergeIndexCallback idx ik
          (Set64.encode (Set64.singleton (beVal (key.take 8))))) cs

/-- `Hkvdb::search_raw` (src/db.rs lines 220-231): derive the index key,
point-lookup the index column family, decode the stored posting set with
Set64 and return its values in stored order; an absent key yields the empty
list. -/
def searchRaw (idx : Store) (data : Bytes) (cs : CaseSensitivity) :
    Except Error (List Nat) :=
  match makeIndexKey data cs with
  | .error e => .error e
  | .ok k =>
    match storeLookup idx k with
    | some bytes => (Set64.tryFrom bytes).map Set64.values
    | none => .ok []

/-! ### C2: the concrete aggregation example -/

/-- The eight observations of the aggregation-correctness property, with
labels as byte strings: (1,"foo",101), (1,"bar",1), (1,"foo",23),
(2,"FOO",23), (1,"qux",50), (1,"bar",1), (1,"qux",0), (2,"abc",23). -/
def observationsC2 : List (Nat × Bytes × Nat) :=
  [(1, [102, 111, 111], 101),
   (1, [98, 97, 114], 1),
   (1, [102, 111, 111], 23),
   (2, [70, 79, 79], 23),
   (1, [113, 117, 120], 50),
   (1, [98, 97, 114], 1),
   (1, [113, 117, 120], 0),
   (2, [97, 98, 99], 23)]

/-- The by_id column family after writing the eight observations through put
with range aggregation (put converts each u32 timestamp to a Range32
singleton before encoding, per the `Into` bounds). -/
def storeC2 : Store :=
  putAll range32Alg
    (observationsC2.map (fun o => (o.1, o.2.1, Range32.singleton o.2.2))) []

/-- C2: after the eight observations under range aggregation, get(1) returns
exactly the mapping bar ↦ [1,1], foo ↦ [23,101], qux ↦ [0,50] (given here as
the association list in label scan order, labels as code points), and
get_counts returns (2 distinct ids, 5 entries). -/
theorem aggregation_example :
    dbGet range32Alg storeC2 1 =
      .ok [([98, 97, 114], ⟨1, 1⟩), ([102, 111, 111], ⟨23, 101⟩),
        ([113, 117, 120], ⟨0, 50⟩)] ∧
    dbGetCounts storeC2 = some (2, 5) :=
  ⟨rfl, rfl⟩

/-! ### C8: per-id isolation -/

theorem storeSet_mem : ∀ (st : Store) (k : Bytes) (nv : Option Bytes) (kv : Bytes × Bytes),
    kv ∈ storeSet st k nv → kv.1 = k ∨ kv ∈ st := by
  intro st
  induction st with
  | nil =>
    intro k nv kv h
    rw [storeSet.eq_def] at h
    dsimp only at h
    cases nv with
    | none => simp at h
    | some v =>
      simp at h
      left
      rw [h]
  | cons hd rest ih =>
    intro k nv kv h
    obtain ⟨k0, v0⟩ := hd
    rw [storeSet.eq_def] at h
    dsimp only at h
    split at h
    · cases nv with
      | some v =>
        rcases List.mem_cons.mp h with h2 | h2
        · left; rw [h2]
        · right; exact h2
      | none =>
        right; exact h
    · split at h
      · cases nv with
        | some v =>
          rcases List.mem_cons.mp h with h3 | h3
          · left; rw [h3]
          · right; exact List.mem_cons_of_mem _ h3
        | none =>
          right; exact List.mem_cons_of_mem _ h
      · rcases List.mem_cons.mp h with h3 | h3
        · right; rw [h3]; exact List.mem_cons_self _ _
        · rcases ih k nv kv h3 with h4 | h4
          · left; exact h4
          · right; exact List.mem_cons_of_mem _ h4

theorem mergeWrite_mem (cb : Bytes → Option Bytes → List Bytes → Option Bytes)
    (st : Store) (k op : Bytes) (kv : Bytes × Bytes)
    (h : kv ∈ mergeWrite cb st k op) : kv.1 = k ∨ kv ∈ st :=
  storeSet_mem st k _ kv h

theorem putAll_mem {α : Type} (A : Alg α) :
    ∀ (ops : List (Nat × Bytes × α)) (st : Store) (kv : Bytes × Bytes),
      kv ∈ putAll A ops st → (∃ o ∈ ops, kv.1 = makeKey o.1 o.2.1) ∨ kv ∈ st
  | [], st, kv => by
    intro h
    right
    exact h
  | o :: rest, st, kv => by
    intro h
    rw [putAll, List.foldl_cons] at h
    rcases putAll_mem A rest (dbPutRaw A st o.1 o.2.1 o.2.2) kv h with h1 | h1
    · left
      obtain ⟨o2, ho2, he⟩ := h1
      exact ⟨o2, List.mem_cons_of_mem _ ho2, he⟩
    · rcases mergeWrite_mem _ _ _ _ kv h1 with h2 | h2
      · left
        exact ⟨o, List.mem_cons_self _ _, h2⟩
      · right
        exact h2

theorem collectOk_mem {β γ : Type} (f : β → Except Error γ) :
    ∀ (l : List β) (res : List γ), collectOk f l = .ok res →
      ∀ y ∈ res, ∃ x ∈ l, f x = .ok y
  | [], res => by
    intro h y hy
    rw [collectOk] at h
    injection h with h
    subst h
    simp at hy
  | x :: xs, res => by
    intro h y hy
    rw [collectOk] at h
    cases hf : f x with
    | error e =>
      rw [hf] at h
      exact Except.noConfusion h
    | ok v =>
      rw [hf] at h
      cases hm : collectOk f xs with
      | error e =>
        rw [hm] at h
        exact Except.noConfusion h
      | ok vs =>
        rw [hm] at h
        injection h with h
        subst h
        rcases List.mem_cons.mp hy with h2 | h2
        · exact ⟨x, List.mem_cons_self x xs, by rw [hf, h2]⟩
        · obtain ⟨x2, hx2, hfx2⟩ := collectOk_mem f xs vs hm y h2
          exact ⟨x2, List.mem_cons_of_mem _ hx2, hfx2⟩

/-- C8: per-id isolation — in a store built from any sequence of put_raw
writes (put, put_batch and put_raw_batch submit the same per-entry merge
requests), every entry returned by get_raw(B) carries a label that was
written under id B itself, so labels written only under other ids never
appear under get_raw(B) (and hence never under get(B), which relabels the
same entries). -/
theorem per_id_isolation {α : Type} (A : Alg α) (ops : List (Nat × Bytes × α))
    (hbound : ∀ o ∈ ops, o.1 < 2 ^ 64) (B : Nat)
    (res : List (Bytes × α)) (hres : dbGetRaw A (putAll A ops []) B = .ok res)
    (label : Bytes) (v : α) (hmem : (label, v) ∈ res) :
    ∃ o ∈ ops, o.1 = B ∧ o.2.1 = label := by
  have h64 : (256 : Nat) ^ 8 = 2 ^ 64 := by norm_num
  rw [dbGetRaw] at hres
  obtain ⟨kv, hkv, hfkv⟩ := collectOk_mem _ _ res hres (label, v) hmem
  have hcond := List.mem_takeWhile_imp hkv
  have hid : beVal (kv.1.take 8) = B := by simpa using hcond
  have hst : kv ∈ putAll A ops [] :=
    ((List.takeWhile_sublist _).trans (List.dropWhile_sublist _)).subset hkv
  rcases putAll_mem A ops [] kv hst with h1 | h1
  · obtain ⟨o, ho, hkey⟩ := h1
    have hb : o.1 < 2 ^ 64 := hbound o ho
    have htake : kv.1.take 8 = beBytes 8 o.1 := by
      rw [hkey, makeKey, List.take_left' (beBytes_length 8 o.1)]
    have ho1 : o.1 = B := by
      rw [htake, beVal_beBytes 8 o.1 (by omega)] at hid
      exact hid
    have hlabel : kv.1.drop 8 = o.2.1 := by
      rw [hkey, makeKey, List.drop_left' (beBytes_length 8 o.1)]
    have hlab2 : kv.1.drop 8 = label := by
      cases hp : A.prepare kv.2 with
      | error e =>
        rw [hp] at hfkv
        simp [Except.map] at hfkv
      | ok v2 =>
        rw [hp] at hfkv
        simp only [Except.map] at hfkv
        injection hfkv with hfkv
        exact congrArg Prod.fst hfkv
    exact ⟨o, ho, ho1, by rw [← hlabel, hlab2]⟩
  · simp at h1

/-- The concrete write sequence used to witness per-id isolation. -/
def opsC8 : List (Nat × Bytes × Range32) :=
  [(1, [97], Range32.singleton 7), (2, [98], Range32.singleton 9)]

/-- C8 witness: with writes under ids 1 and 2, the single entry returned by
get_raw(2) was written under id 2. -/
theorem per_id_isolation_witness : ∃ o ∈ opsC8, o.1 = 2 ∧ o.2.1 = [98] :=
  per_id_isolation range32Alg opsC8 (by decide) 2
    [([98], ⟨9, 9⟩)] rfl [98] ⟨9, 9⟩ (List.mem_cons_self _ _)

/-! ### C9: make_index is not atomic on error -/

/-- C9: scanning pre ++ bad :: post where every label in pre derives an
index key and bad's label is not valid UTF-8, the case-insensitive index
build returns InvalidUtf8, yet the index merges for the entries of pre stay
applied: the final index state equals the state after indexing exactly pre,
and post is never reached — the secondary index is left partially built. -/
theorem make_index_partial_on_error (badKey badVal : Bytes)
    (hbad : utf8Decode (badKey.drop 8) = none) (post : List (Bytes × Bytes)) :
    ∀ pre : List (Bytes × Bytes),
      (∀ kv ∈ pre, ∃ k, makeIndexKey (kv.1.drop 8) CaseSensitivity.insensitive = .ok k) →
      ∀ idx : Store,
        makeIndexRun (pre ++ (badKey, badVal) :: post) idx CaseSensitivity.insensitive =
          (.error .invalidUtf8, (makeIndexRun pre idx CaseSensitivity.insensitive).2) := by
  intro pre
  induction pre with
  | nil =>
    intro _ idx
    have hkey : makeIndexKey (badKey.drop 8) CaseSensitivity.insensitive =
        .error .invalidUtf8 := by
      rw [makeIndexKey, hbad]
    rw [List.nil_append]
    conv_lhs => rw [makeIndexRun]
    rw [hkey]
    rfl
  | cons kv rest ih =>
    intro hpre idx
    obtain ⟨key, value⟩ := kv
    obtain ⟨k, hk⟩ := hpre (key, value) (List.mem_cons_self _ _)
    have hunf : ∀ (l : List (Bytes × Bytes)) (idx2 : Store),
        makeIndexRun ((key, value) :: l) idx2 CaseSensitivity.insensitive =
          makeIndexRun l (mergeWrite mergeIndexCallback idx2 k
            (Set64.encode (Set64.singleton (beVal (key.take 8)))))
            CaseSensitivity.insensitive := by
      intro l idx2
      rw [makeIndexRun, hk]
    rw [List.cons_append, hunf, hunf]
    exact ih (fun kv₂ h₂ => hpre kv₂ (List.mem_cons_of_mem _ h₂)) _

/-- C9 witness: a valid entry (id 1, label "a") followed by an entry with
the non-UTF-8 label byte 255 under id 2; the insensitive build fails with
InvalidUtf8, with the index state equal to that after indexing only the
first entry. -/
theorem make_index_partial_on_error_witness :
    makeIndexRun [(makeKey 1 [97], [0, 0, 0, 7]), (makeKey 2 [255], [0, 0, 0, 7])] []
        CaseSensitivity.insensitive =
      (.error .invalidUtf8,
        (makeIndexRun [(makeKey 1 [97], [0, 0, 0, 7])] [] CaseSensitivity.insensitive).2) :=
  make_index_partial_on_error (makeKey 2 [255]) [0, 0, 0, 7] rfl []
    [(makeKey 1 [97], [0, 0, 0, 7])]
    (fun kv hkv => by
      rw [List.mem_singleton] at hkv
      subst hkv
      exact ⟨[97], rfl⟩) []

/-! ### C10: decoding does not enforce the sorted-deduplicated invariant -/

/-- C10: Set32 and Set64 decoding accepts any byte string whose length is a
multiple of the element width and returns the decoded integers in exactly
the stored order (including unsorted or duplicated sequences), and
search_raw returns the stored posting sequence verbatim for any stored
bytes of valid length. -/
theorem decode_preserves_stored_order :
    (∀ bs : Bytes, bs.length % 4 = 0 → Set32.tryFrom bs = .ok ⟨beChunks 4 bs⟩) ∧
    (∀ bs : Bytes, bs.length % 8 = 0 → Set64.tryFrom bs = .ok ⟨beChunks 8 bs⟩) ∧
    (∀ (idx : Store) (data k bytes : Bytes) (cs : CaseSensitivity),
      makeIndexKey data cs = .ok k → storeLookup idx k = some bytes →
      bytes.length % 8 = 0 → searchRaw idx data cs = .ok (beChunks 8 bytes)) := by
  refine ⟨?_, ?_, ?_⟩
  · intro bs h
    rw [Set32.tryFrom, if_pos h]
  · intro bs h
    rw [Set64.tryFrom, if_pos h]
  · intro idx data k bytes cs hk hl hlen
    rw [searchRaw, hk]
    show (match storeLookup idx k with
      | some bytes => Except.map Set64.values (Set64.tryFrom bytes)
      | none => Except.ok []) = Except.ok (beChunks 8 bytes)
    rw [hl]
    show Except.map Set64.values (Set64.tryFrom bytes) = Except.ok (beChunks 8 bytes)
    rw [Set64.tryFrom, if_pos hlen]
    rfl

/-- C10 witness: the 12-byte string encoding the unsorted, duplicated
sequence [5, 5, 1] decodes verbatim as a Set32, and a posting set stored as
the unsorted sequence [9, 2] is returned verbatim by search_raw. -/
theorem decode_preserves_stored_order_witness :
    Set32.tryFrom [0, 0, 0, 5, 0, 0, 0, 5, 0, 0, 0, 1] = .ok ⟨[5, 5, 1]⟩ ∧
    searchRaw [([97], [0, 0, 0, 0, 0, 0, 0, 9, 0, 0, 0, 0, 0, 0, 0, 2])] [97]
      CaseSensitivity.sensitive = .ok [9, 2] :=
  ⟨(decode_preserves_stored_order.1 [0, 0, 0, 5, 0, 0, 0, 5, 0, 0, 0, 1]
      (by decide)).trans (by rfl),
   (decode_preserves_stored_order.2.2
      [([97], [0, 0, 0, 0, 0, 0, 0, 9, 0, 0, 0, 0, 0, 0, 0, 2])] [97] [97]
      [0, 0, 0, 0, 0, 0, 0, 9, 0, 0, 0, 0, 0, 0, 0, 2] CaseSensitivity.sensitive
      rfl rfl (by decide)).trans (by rfl)⟩

end Hkvdb
